import Mathlib

/-!
Shallow embedding of `src/universal_min_hash.py`: a similarity-hashing
front end that encodes sets, sequences, trees and weighted sets into the
inputs of an external minhash engine (the `datasketch` library).

Modelling choices:
* Python values that reach `str(...)` are modelled by `PyVal`
  (integers, strings and pairs — the code only ever forms 2-tuples
  that are serialized).
* The external engine (`MinHash`, `WeightedMinHashGenerator`) is out of
  scope per the spec; it is modelled by recording exactly the data the
  code feeds it: the token list and `num_perm` for `MinHash`, the dense
  vector and the bound `(dim, sample_size)` for weighted minhash.
* Python exceptions are modelled with `Except String`.
* `numpy.put` with the default `mode` (raise) is modelled by `npPut`:
  an index `i` with `-n ≤ i < n` writes position `i` (wrapping negative
  indices to `n + i`), any other index raises.
* `int(key)` is modelled by `pyInt?`: surrounding whitespace, an
  optional sign, then decimal digits.
* Python dicts are insertion-ordered, so a dict is an association list;
  nested tree dicts are the mutual inductives `TreeDict`/`TreeVal`.
-/

namespace UniversalMinHash

/-- Python values the program serializes with `str`. -/
inductive PyVal where
  | int : Int → PyVal
  | str : String → PyVal
  | pair : PyVal → PyVal → PyVal
deriving DecidableEq, Repr

/-- Python `repr` on the modelled values. -/
def pyRepr : PyVal → String
  | PyVal.int n => toString n
  | PyVal.str s => "'" ++ s ++ "'"
  | PyVal.pair a b => "(" ++ pyRepr a ++ ", " ++ pyRepr b ++ ")"

/-- Python `str` on the modelled values: a string is itself, anything
else prints as its `repr` (tuples print their components' `repr`s). -/
def pyStr : PyVal → String
  | PyVal.str s => s
  | v => pyRepr v

/-- The `datasketch.MinHash` object, modelled by the data the code hands
it: the permutation count of its constructor and the byte strings passed
to `update`, in order. -/
structure MinHash where
  num_perm : Nat
  tokens : List String := []
deriving DecidableEq, Repr

/-- Model of `MinHash.update(bytes)`: record the token. -/
def MinHash.update (h : MinHash) (b : String) : MinHash :=
  { h with tokens := h.tokens ++ [b] }

/-- The `datasketch.WeightedMinHashGenerator`, modelled by the pair it
is constructed with: the vector dimension and the sample size. -/
structure WeightedMinHashGenerator where
  dim : Nat
  sample_size : Nat
deriving DecidableEq, Repr

/-- A weighted minhash sketch, modelled by the data that produced it. -/
structure WeightedMinHash where
  dim : Nat
  sample_size : Nat
  vector : List Rat
deriving DecidableEq, Repr

/-- Model of `generator.minhash(vector)`. -/
def WeightedMinHashGenerator.minhash (gen : WeightedMinHashGenerator)
    (v : List Rat) : WeightedMinHash :=
  ⟨gen.dim, gen.sample_size, v⟩

/-- Decimal digits to a number: `none` unless the run is nonempty and
all digits. -/
def digitsToNat? (cs : List Char) : Option Nat :=
  if cs ≠ [] ∧ cs.all Char.isDigit then
    some (cs.foldl (fun n c => n * 10 + (c.toNat - 48)) 0)
  else none

/-- Python `int(s)` on strings: optional surrounding whitespace, an
optional sign, then a nonempty run of decimal digits; `none` models the
`ValueError` raised otherwise. -/
def pyInt? (s : String) : Option Int :=
  let cs := ((s.data.dropWhile Char.isWhitespace).reverse.dropWhile
    Char.isWhitespace).reverse
  match cs with
  | [] => none
  | c :: rest =>
    if c = '-' then (digitsToNat? rest).map (fun n => -(n : Int))
    else if c = '+' then (digitsToNat? rest).map (fun n => (n : Int))
    else (digitsToNat? cs).map (fun n => (n : Int))

/-- Worker for `npPut`: write the (index, value) pairs into the vector
in order; `n` is the vector length. An index in `[-n, n)` is accepted,
a negative one wrapping to `n + i`; anything else raises `IndexError`. -/
def npPutGo (n : Nat) (vec : List Rat) : List (Int × Rat) → Except String (List Rat)
  | [] => Except.ok vec
  | (i, w) :: rest =>
    if i < -(n : Int) ∨ (n : Int) ≤ i then
      Except.error "IndexError: index out of range"
    else
      npPutGo n (vec.set (if i < 0 then i + (n : Int) else i).toNat w) rest

/-- Model of `numpy.put(vec, indices, values)` in the default raise
mode, at the call shape the code uses (equal-length index and value
lists from one dict). -/
def npPut (vec : List Rat) (indices : List Int) (values : List Rat) :
    Except String (List Rat) :=
  npPutGo vec.length vec (indices.zip values)

mutual

/-- Value side of a nested Python dict: a leaf value or a sub-dict. -/
inductive TreeVal where
  | leaf : PyVal → TreeVal
  | node : TreeDict → TreeVal

/-- A Python dict used as a tree level: insertion-ordered key/value
entries. -/
inductive TreeDict where
  | nil : TreeDict
  | cons : PyVal → TreeVal → TreeDict → TreeDict

end

/-- Keys of a dict, in insertion order (`d.keys()`). -/
def TreeDict.keys : TreeDict → List PyVal
  | TreeDict.nil => []
  | TreeDict.cons k _ rest => k :: rest.keys

/-- Entries of a dict, in insertion order (`d.items()`). -/
def TreeDict.entries : TreeDict → List (PyVal × TreeVal)
  | TreeDict.nil => []
  | TreeDict.cons k v rest => (k, v) :: rest.entries

mutual

/-- The source's `flatten_tree(d, keys)`: walk the dict's entries in
order; a sub-dict recurses with the path `keys + [k]` (a fresh list —
`keys + [k]` copies in Python), a leaf yields the branch
`tuple(keys + [k, v])`. -/
def flatten_tree : TreeDict → List PyVal → List (List PyVal)
  | TreeDict.nil, _ => []
  | TreeDict.cons k v rest, keys => flattenEntry k v keys ++ flatten_tree rest keys

/-- Loop body of `flatten_tree`: the branches contributed by one
dict entry `(k, v)`. -/
def flattenEntry (k : PyVal) : TreeVal → List PyVal → List (List PyVal)
  | TreeVal.leaf x, keys => [keys ++ [k, x]]
  | TreeVal.node sub, keys => flatten_tree sub (keys ++ [k])

end

/-- `itertools.combinations(l, 2)`: all ordered pairs of elements at
index positions i < j, in the generator's order. -/
def combinations2 {α : Type} : List α → List (α × α)
  | [] => []
  | x :: xs => (xs.map (fun y => (x, y))) ++ combinations2 xs

/-- A 2-tuple as a Python value, as built by `combinations(..., 2)`. -/
def pairToVal (p : PyVal × PyVal) : PyVal := PyVal.pair p.1 p.2

/-- The `weighted_option` argument: the code compares it against
`False` and against string keys, so the model carries both shapes.
The Python default is the string `'None'`. -/
inductive PyOpt where
  | str : String → PyOpt
  | bool : Bool → PyOpt
deriving DecidableEq, Repr

/-- The supported structure names, keys of the dispatch dict. -/
def structures : List String := ["set", "sequence", "tree", "weighted_set"]

/-- The `weighted_set_options` dict of the constructor. -/
def weighted_set_options : List (String × Nat) :=
  [("ports", 65536), ("english", 100), ("sfc", 10)]

/-- Lookup of `weighted_option` in `weighted_set_options`: only the
three string keys match (a Python bool never equals a string key). -/
def PyOpt.lookupDim : PyOpt → Option Nat
  | PyOpt.str s => (weighted_set_options.find? (fun kv => kv.1 = s)).map (fun kv => kv.2)
  | PyOpt.bool _ => none

/-- The `SimilarityHashing` object's attributes after `__init__`. The
dispatch entry `structure_function` is determined by `structure_name`,
so it is not stored separately; the two weighted attributes exist only
when constructed for weighted sets. -/
structure SimilarityHashing where
  structure_name : String
  num_hash : Nat
  weighted_set_option : Option Nat := none
  weighted_hash_gen : Option WeightedMinHashGenerator := none
deriving DecidableEq, Repr

/-- The source's `SimilarityHashing.__init__(structure, size,
weighted_option='None')`; a raised exception is `Except.error`. -/
def SimilarityHashing.init (structureKind : String) (size : Nat)
    (weighted_option : PyOpt := PyOpt.str "None") :
    Except String SimilarityHashing :=
  if structureKind ∈ structures then
    let self : SimilarityHashing := { structure_name := structureKind, num_hash := size }
    let sample_size := size
    if structureKind = "weighted_set" then
      if weighted_option = PyOpt.bool false then
        Except.error "need to determine support for weighted hashing"
      else
        match weighted_option.lookupDim with
        | some dim =>
          Except.ok { self with
            weighted_set_option := some dim,
            weighted_hash_gen := some ⟨dim, sample_size⟩ }
        | none => Except.error "unsupported option for weighted sets"
    else
      Except.ok self
  else
    Except.error "Unsupported structure! please use one of the following: set, sequence, tree, weighted_set"

/-- The source's `set_hashing(data)`: a fresh `MinHash(num_perm =
self.num_hash)` updated with `str(obj).encode('utf8')` for each element
in order. -/
def SimilarityHashing.set_hashing (self : SimilarityHashing)
    (data : List PyVal) : MinHash :=
  data.foldl (fun hash_gen obj => hash_gen.update (pyStr obj))
    { num_perm := self.num_hash }

/-- One step of the key-parsing comprehension `int(key)`: a
non-parsable key raises `ValueError`. -/
def parseKey (key : String) : Except String Int :=
  match pyInt? key with
  | some i => Except.ok i
  | none => Except.error "ValueError: invalid literal for int with base 10"

/-- The source's `weighted_set_hashing(data)`: parse every key with
`int`, build a zero vector of the configured dimension, `numpy.put` the
weights at the parsed indices, and hand the vector to the generator
bound at construction. Touching the weighted attributes on an encoder
not built for weighted sets is Python's `AttributeError`. -/
def SimilarityHashing.weighted_set_hashing (self : SimilarityHashing)
    (data : List (String × Rat)) : Except String WeightedMinHash :=
  match self.weighted_set_option, self.weighted_hash_gen with
  | some dim, some gen => do
    let vector := List.replicate dim (0 : Rat)
    let indices ← (data.map (fun kv => kv.1)).mapM parseKey
    let vector ← npPut vector indices (data.map (fun kv => kv.2))
    Except.ok (gen.minhash vector)
  | _, _ => Except.error "AttributeError: no weighted_hash_gen"

/-- The source's `sequence_hashing(data)`: `combinations(data, 2)` fed
through `set_hashing` (each pair is a tuple that `str` serializes). -/
def SimilarityHashing.sequence_hashing (self : SimilarityHashing)
    (data : List PyVal) : MinHash :=
  self.set_hashing ((combinations2 data).map pairToVal)

/-- Result of `tree_hashing`: the code returns the empty list `[]` for
an empty input and a `MinHash` otherwise; the two shapes are the two
constructors. -/
inductive TreeResult where
  | empty : TreeResult
  | sketch : MinHash → TreeResult
deriving DecidableEq, Repr

/-- The source's `tree_hashing(data)`: zero roots return the empty
list, more than one raises, otherwise every branch of the flattened
tree contributes its 2-combinations and the pooled pairs go through
`set_hashing`. -/
def SimilarityHashing.tree_hashing (self : SimilarityHashing)
    (data : TreeDict) : Except String TreeResult :=
  let root_lst := data.keys
  if root_lst.length = 0 then
    Except.ok TreeResult.empty
  else if root_lst.length > 1 then
    Except.error "A tree has only 1 root node!"
  else
    let list_of_sequences := flatten_tree data []
    let list_of_pairs := (list_of_sequences.map (fun branch => combinations2 branch)).flatten
    Except.ok (TreeResult.sketch (self.set_hashing (list_of_pairs.map pairToVal)))

/-- Whether an `Except` carries a success value (the call did not raise). -/
def isOk {ε α : Type} : Except ε α → Bool
  | Except.ok _ => true
  | Except.error _ => false

@[simp]
theorem isOk_ok {ε α : Type} (a : α) : isOk (Except.ok a : Except ε α) = true := rfl

@[simp]
theorem isOk_error {ε α : Type} (e : ε) : isOk (Except.error e : Except ε α) = false := rfl

theorem set_hash_fold (data : List PyVal) (h : MinHash) :
    data.foldl (fun hash_gen obj => hash_gen.update (pyStr obj)) h =
      { num_perm := h.num_perm, tokens := h.tokens ++ data.map pyStr } := by
  induction data generalizing h with
  | nil => simp
  | cons x xs ih =>
    rw [List.foldl_cons, ih]
    simp [MinHash.update, List.append_assoc]

/-- `set_hashing` feeds the engine one token per element, in order: the
serialized elements, with the configured permutation count. -/
theorem set_hashing_eq (self : SimilarityHashing) (data : List PyVal) :
    self.set_hashing data = { num_perm := self.num_hash, tokens := data.map pyStr } := by
  unfold SimilarityHashing.set_hashing
  rw [set_hash_fold]
  simp

theorem length_combinations2 {α : Type} (l : List α) :
    (combinations2 l).length = Nat.choose l.length 2 := by
  induction l with
  | nil => rfl
  | cons x xs ih =>
    simp only [combinations2, List.length_append, List.length_map, ih, List.length_cons]
    rw [Nat.choose_succ_succ, Nat.choose_one_right]

theorem mem_combinations2 {α : Type} (l : List α) (p : α × α) :
    p ∈ combinations2 l ↔ ∃ i j : Fin l.length, i < j ∧ p = (l.get i, l.get j) := by
  induction l with
  | nil =>
    simp only [combinations2, List.not_mem_nil, false_iff]
    rintro ⟨⟨i, hi⟩, _, _⟩
    exact absurd hi (Nat.not_lt_zero i)
  | cons x xs ih =>
    simp only [combinations2, List.mem_append, List.mem_map, ih]
    constructor
    · rintro (⟨y, hy, rfl⟩ | ⟨i, j, hij, rfl⟩)
      · obtain ⟨j, rfl⟩ := List.mem_iff_get.mp hy
        exact ⟨⟨0, Nat.succ_pos _⟩, j.succ, Nat.succ_pos _, rfl⟩
      · refine ⟨i.succ, j.succ, ?_, rfl⟩
        simpa using hij
    · rintro ⟨⟨i, hi⟩, ⟨j, hj⟩, hij, rfl⟩
      rw [Fin.mk_lt_mk] at hij
      match i, j with
      | _, 0 => exact absurd hij (Nat.not_lt_zero _)
      | 0, j + 1 =>
        exact Or.inl ⟨xs.get ⟨j, Nat.lt_of_succ_lt_succ hj⟩, List.get_mem _ _ _, rfl⟩
      | i + 1, j + 1 =>
        exact Or.inr ⟨⟨i, Nat.lt_of_succ_lt_succ hi⟩, ⟨j, Nat.lt_of_succ_lt_succ hj⟩,
          Nat.lt_of_succ_lt_succ hij, rfl⟩

mutual

/-- The path accumulator only prefixes each produced branch: no
recursive call can alter another's partial path. -/
theorem flatten_tree_acc (d : TreeDict) (keys : List PyVal) :
    flatten_tree d keys = (flatten_tree d []).map (fun br => keys ++ br) := by
  cases d with
  | nil => rfl
  | cons k v rest =>
    show flattenEntry k v keys ++ flatten_tree rest keys =
      (flattenEntry k v [] ++ flatten_tree rest []).map (fun br => keys ++ br)
    rw [flattenEntry_acc k v keys, flatten_tree_acc rest keys, List.map_append]

/-- Accumulator lemma for one dict entry. -/
theorem flattenEntry_acc (k : PyVal) (v : TreeVal) (keys : List PyVal) :
    flattenEntry k v keys = (flattenEntry k v []).map (fun br => keys ++ br) := by
  cases v with
  | leaf x => simp [flattenEntry]
  | node sub =>
    show flatten_tree sub (keys ++ [k]) =
      (flatten_tree sub ([] ++ [k])).map (fun br => keys ++ br)
    rw [flatten_tree_acc sub (keys ++ [k]), flatten_tree_acc sub ([] ++ [k]),
      List.map_map]
    simp [Function.comp, List.append_assoc]

end

/-- A root-to-leaf path of a nested dict: the ordered keys along the
path followed by the terminal leaf value. -/
inductive IsBranch : TreeDict → List PyVal → Prop where
  | leaf {d : TreeDict} {k x : PyVal}
      (hk : (k, TreeVal.leaf x) ∈ d.entries) : IsBranch d [k, x]
  | node {d : TreeDict} {k : PyVal} {sub : TreeDict} {br : List PyVal}
      (hk : (k, TreeVal.node sub) ∈ d.entries) (hbr : IsBranch sub br) :
      IsBranch d (k :: br)

theorem isBranch_cons_of_rest {k : PyVal} {v : TreeVal} {rest : TreeDict}
    {br : List PyVal} (h : IsBranch rest br) : IsBranch (TreeDict.cons k v rest) br := by
  cases h with
  | leaf hk => exact IsBranch.leaf (List.mem_cons_of_mem _ hk)
  | node hk hbr => exact IsBranch.node (List.mem_cons_of_mem _ hk) hbr

mutual

/-- The branches `flatten_tree` returns from an empty accumulator are
exactly the root-to-leaf paths of the dict. -/
theorem mem_flatten_tree (d : TreeDict) (br : List PyVal) :
    br ∈ flatten_tree d [] ↔ IsBranch d br := by
  cases d with
  | nil =>
    show br ∈ ([] : List (List PyVal)) ↔ _
    simp only [List.not_mem_nil, false_iff]
    intro h
    cases h with
    | leaf hk => exact absurd hk (List.not_mem_nil _)
    | node hk _ => exact absurd hk (List.not_mem_nil _)
  | cons k v rest =>
    show br ∈ flattenEntry k v [] ++ flatten_tree rest [] ↔ _
    rw [List.mem_append, mem_flattenEntry k v br, mem_flatten_tree rest br]
    constructor
    · rintro ((⟨x, rfl, rfl⟩ | ⟨sub, tl, rfl, rfl, htl⟩) | hrest)
      · exact IsBranch.leaf (List.mem_cons_self _ _)
      · exact IsBranch.node (List.mem_cons_self _ _) htl
      · exact isBranch_cons_of_rest hrest
    · intro h
      cases h with
      | leaf hk =>
        rcases List.mem_cons.mp hk with heq | htail
        · obtain ⟨rfl, rfl⟩ := Prod.mk.injEq .. ▸ heq
          exact Or.inl (Or.inl ⟨_, rfl, rfl⟩)
        · exact Or.inr (IsBranch.leaf htail)
      | node hk hbr =>
        rcases List.mem_cons.mp hk with heq | htail
        · obtain ⟨rfl, rfl⟩ := Prod.mk.injEq .. ▸ heq
          exact Or.inl (Or.inr ⟨_, _, rfl, rfl, hbr⟩)
        · exact Or.inr (IsBranch.node htail hbr)

/-- Branches contributed by one dict entry, from an empty accumulator. -/
theorem mem_flattenEntry (k : PyVal) (v : TreeVal) (br : List PyVal) :
    br ∈ flattenEntry k v [] ↔
      (∃ x, v = TreeVal.leaf x ∧ br = [k, x]) ∨
      (∃ sub tl, v = TreeVal.node sub ∧ br = k :: tl ∧ IsBranch sub tl) := by
  cases v with
  | leaf x =>
    show br ∈ [[k, x]] ↔ _
    simp
  | node sub =>
    show br ∈ flatten_tree sub ([] ++ [k]) ↔ _
    rw [List.nil_append, flatten_tree_acc sub [k]]
    simp only [List.mem_map]
    constructor
    · rintro ⟨tl, htl, rfl⟩
      exact Or.inr ⟨sub, tl, rfl, rfl, (mem_flatten_tree sub tl).mp htl⟩
    · rintro (⟨x, hx, _⟩ | ⟨sub2, tl, hsub, rfl, htl⟩)
      · exact absurd hx (by intro h; cases h)
      · obtain rfl : sub = sub2 := by injection hsub
        exact ⟨tl, (mem_flatten_tree sub tl).mpr htl, rfl⟩

end

/-- Index a key is written at when it parses: the parsed integer for
in-range keys (`numpy.put` wraps negative in-bounds indices, handled
separately in the range lemmas). -/
def parsedIndex (key : String) : Nat := ((pyInt? key).getD 0).toNat

@[simp]
theorem ok_bind {ε α β : Type} (a : α) (f : α → Except ε β) :
    (Except.ok a >>= f) = f a := rfl

@[simp]
theorem error_bind {ε α β : Type} (e : ε) (f : α → Except ε β) :
    ((Except.error e : Except ε α) >>= f) = Except.error e := rfl

theorem mapM_parseKey_ok (keys : List String)
    (hall : ∀ k ∈ keys, (pyInt? k).isSome = true) :
    keys.mapM parseKey = Except.ok (keys.map (fun k => (pyInt? k).getD 0)) := by
  induction keys with
  | nil => rfl
  | cons k ks ih =>
    have hk := hall k (List.mem_cons_self _ _)
    obtain ⟨i, hi⟩ := Option.isSome_iff_exists.mp hk
    rw [List.mapM_cons, ih (fun q hq => hall q (List.mem_cons_of_mem _ hq))]
    simp [parseKey, hi]

theorem mapM_parseKey_err (keys : List String)
    (hbad : ∃ k ∈ keys, pyInt? k = none) :
    ∃ msg, keys.mapM parseKey = Except.error msg := by
  induction keys with
  | nil => simp at hbad
  | cons k ks ih =>
    rw [List.mapM_cons]
    cases hp : pyInt? k with
    | none =>
      refine ⟨"ValueError: invalid literal for int with base 10", ?_⟩
      simp [parseKey, hp]
    | some i =>
      have : ∃ q ∈ ks, pyInt? q = none := by
        rcases hbad with ⟨q, hq, hqn⟩
        rcases List.mem_cons.mp hq with rfl | hq2
        · exact absurd hqn (by simp [hp])
        · exact ⟨q, hq2, hqn⟩
      obtain ⟨msg, hmsg⟩ := ih this
      refine ⟨msg, ?_⟩
      rw [hmsg]
      simp [parseKey, hp]

theorem npPutGo_ok (n : Nat) (pairs : List (Int × Rat)) (vec : List Rat)
    (hgood : ∀ pr ∈ pairs, 0 ≤ pr.1 ∧ pr.1 < (n : Int)) :
    npPutGo n vec pairs =
      Except.ok (pairs.foldl (fun v pr => v.set pr.1.toNat pr.2) vec) := by
  induction pairs generalizing vec with
  | nil => rfl
  | cons pr rest ih =>
    obtain ⟨h0, hn⟩ := hgood pr (List.mem_cons_self _ _)
    obtain ⟨i, w⟩ := pr
    simp only at h0 hn
    unfold npPutGo
    rw [if_neg (by omega), if_neg (by omega)]
    exact ih _ (fun q hq => hgood q (List.mem_cons_of_mem _ hq))

theorem npPutGo_err (n : Nat) (pairs : List (Int × Rat)) (vec : List Rat)
    (hbad : ∃ pr ∈ pairs, pr.1 < -(n : Int) ∨ (n : Int) ≤ pr.1) :
    ∃ msg, npPutGo n vec pairs = Except.error msg := by
  induction pairs generalizing vec with
  | nil => simp at hbad
  | cons pr rest ih =>
    unfold npPutGo
    by_cases hc : pr.1 < -(n : Int) ∨ (n : Int) ≤ pr.1
    · exact ⟨"IndexError: index out of range", by rw [if_pos hc]⟩
    · rw [if_neg hc]
      apply ih
      rcases hbad with ⟨q, hq, hqbad⟩
      rcases List.mem_cons.mp hq with rfl | hq2
      · exact absurd hqbad hc
      · exact ⟨q, hq2, hqbad⟩

theorem weighted_fold_length (data : List (String × Rat)) (vec : List Rat) :
    (data.foldl (fun v kv => v.set (parsedIndex kv.1) kv.2) vec).length = vec.length := by
  induction data generalizing vec with
  | nil => rfl
  | cons kv rest ih => rw [List.foldl_cons, ih, List.length_set]

/-- Last write wins: position `i` of the written vector holds the
weight of the last entry whose key writes index `i`, and is untouched
otherwise. -/
theorem weighted_fold_getD (data : List (String × Rat)) (vec : List Rat) (i : Nat)
    (hi : i < vec.length) :
    (data.foldl (fun v kv => v.set (parsedIndex kv.1) kv.2) vec).getD i 0 =
      match data.reverse.find? (fun kv => parsedIndex kv.1 == i) with
      | some kv => kv.2
      | none => vec.getD i 0 := by
  induction data generalizing vec with
  | nil => rfl
  | cons kv rest ih =>
    rw [List.foldl_cons]
    rw [ih (vec.set (parsedIndex kv.1) kv.2) (by rw [List.length_set]; exact hi)]
    rw [List.reverse_cons, List.find?_append]
    cases hrest : rest.reverse.find? (fun kv => parsedIndex kv.1 == i) with
    | some q => simp [Option.or]
    | none =>
      simp only [Option.or_none] at *
      by_cases hki : parsedIndex kv.1 = i
      · subst hki
        simp only [List.find?_cons, beq_self_eq_true, cond_true, List.find?_nil]
        simp [List.getD_eq_getElem?_getD, List.getElem?_set_self hi]
      · have hne : (parsedIndex kv.1 == i) = false := beq_false_of_ne hki
        simp only [List.find?_cons, hne, cond_false, List.find?_nil]
        simp [List.getD_eq_getElem?_getD, List.getElem?_set_ne hki]

theorem init_ok_inv (k : String) (s : Nat) (w : PyOpt) (h : SimilarityHashing)
    (hinit : SimilarityHashing.init k s w = Except.ok h) :
    h.num_hash = s ∧ h.structure_name = k := by
  simp only [SimilarityHashing.init] at hinit
  split at hinit
  · split at hinit
    · split at hinit
      · cases hinit
      · split at hinit
        · cases hinit
          exact ⟨rfl, rfl⟩
        · cases hinit
    · cases hinit
      exact ⟨rfl, rfl⟩
  · cases hinit

theorem init_weighted_inv (s : Nat) (w : PyOpt) (h : SimilarityHashing)
    (hinit : SimilarityHashing.init "weighted_set" s w = Except.ok h) :
    ∃ d : Nat, PyOpt.lookupDim w = some d ∧
      h = ⟨"weighted_set", s, some d, some ⟨d, s⟩⟩ := by
  simp only [SimilarityHashing.init] at hinit
  split at hinit
  · split at hinit
    · split at hinit
      · cases hinit
      · split at hinit
        · rename_i d hd
          cases hinit
          exact ⟨d, hd, rfl⟩
        · cases hinit
    · rename_i hne
      exact absurd (by trivial) hne
  · rename_i hmem
    exact absurd (by decide) hmem

theorem weighted_set_hashing_eq (sn : String) (nh : Nat) (dim : Nat)
    (gen : WeightedMinHashGenerator) (data : List (String × Rat)) :
    SimilarityHashing.weighted_set_hashing ⟨sn, nh, some dim, some gen⟩ data =
      ((data.map (fun kv => kv.1)).mapM parseKey) >>= (fun indices =>
        npPut (List.replicate dim (0 : Rat)) indices (data.map (fun kv => kv.2)) >>=
          (fun vector => Except.ok (gen.minhash vector))) := rfl


/-- Keys are the first components of the entries. -/
theorem keys_eq_entries_map : (d : TreeDict) → d.keys = d.entries.map Prod.fst
  | TreeDict.nil => rfl
  | TreeDict.cons k v rest => by
    show k :: rest.keys = (k, v).fst :: rest.entries.map Prod.fst
    rw [keys_eq_entries_map rest]

/-- Every branch starts with one of the dict's keys. -/
theorem isBranch_head_mem_keys {d : TreeDict} {br : List PyVal}
    (h : IsBranch d br) : ∃ k tl, br = k :: tl ∧ k ∈ d.keys := by
  cases h with
  | leaf hk =>
    refine ⟨_, _, rfl, ?_⟩
    rw [keys_eq_entries_map]
    exact List.mem_map_of_mem _ hk
  | node hk hbr =>
    refine ⟨_, _, rfl, ?_⟩
    rw [keys_eq_entries_map]
    exact List.mem_map_of_mem _ hk

mutual

/-- Distinct keys at every level of the nested dict — what a real
Python dict guarantees. -/
def TreeDict.NodupKeys : TreeDict → Prop
  | TreeDict.nil => True
  | TreeDict.cons k v rest =>
    k ∉ rest.keys ∧ TreeVal.NodupKeys v ∧ TreeDict.NodupKeys rest

/-- Distinct keys at every level below one dict value. -/
def TreeVal.NodupKeys : TreeVal → Prop
  | TreeVal.leaf _ => True
  | TreeVal.node sub => TreeDict.NodupKeys sub

end

mutual

/-- On a dict with distinct keys at every level, no branch is listed
twice: one branch per root-to-leaf path. -/
theorem flatten_tree_nodup : (d : TreeDict) → TreeDict.NodupKeys d →
    (flatten_tree d []).Nodup
  | TreeDict.nil, _ => List.nodup_nil
  | TreeDict.cons k v rest, hd => by
    obtain ⟨hk, hv, hrest⟩ := hd
    show (flattenEntry k v [] ++ flatten_tree rest []).Nodup
    refine List.Nodup.append (flattenEntry_nodup k v hv)
      (flatten_tree_nodup rest hrest) ?_
    intro br hbr1 hbr2
    have h1 := (mem_flattenEntry k v br).mp hbr1
    have h2 := (mem_flatten_tree rest br).mpr ((mem_flatten_tree rest br).mp hbr2)
    obtain ⟨k2, tl2, heq, hk2⟩ :=
      isBranch_head_mem_keys ((mem_flatten_tree rest br).mp hbr2)
    have hhead : ∃ tl, br = k :: tl := by
      rcases h1 with ⟨x, _, rfl⟩ | ⟨sub, tl, _, rfl, _⟩
      · exact ⟨[x], rfl⟩
      · exact ⟨tl, rfl⟩
    obtain ⟨tl, rfl⟩ := hhead
    have : k = k2 := by
      have := heq
      injection this
    exact hk (this ▸ hk2)

/-- Branches of one entry with distinct keys below are distinct. -/
theorem flattenEntry_nodup : (k : PyVal) → (v : TreeVal) → TreeVal.NodupKeys v →
    (flattenEntry k v []).Nodup
  | k, TreeVal.leaf x, _ => List.nodup_singleton _
  | k, TreeVal.node sub, hv => by
    show (flatten_tree sub ([] ++ [k])).Nodup
    rw [List.nil_append, flatten_tree_acc sub [k]]
    refine List.Nodup.map ?_ (flatten_tree_nodup sub hv)
    intro a b hab
    simpa using hab

end

/-- C1: `flatten_tree` on a rooted nested mapping returns exactly the
root-to-leaf paths — each branch is the ordered keys along one path
followed by the terminal leaf value (the `IsBranch` relation) — and the
path accumulator only ever prefixes the branches of a subtree
(`keys + [k]` builds a fresh list), so the branches of one entry are
computed independently of its siblings: the result for
`cons k v rest` is the entry's branches followed by the siblings',
each from its own accumulator. -/
theorem C1_flatten_tree_paths :
    (∀ (d : TreeDict) (br : List PyVal),
      br ∈ flatten_tree d [] ↔ IsBranch d br) ∧
    (∀ (d : TreeDict) (keys : List PyVal),
      flatten_tree d keys = (flatten_tree d []).map (fun br => keys ++ br)) ∧
    (∀ (k : PyVal) (v : TreeVal) (rest : TreeDict) (keys : List PyVal),
      flatten_tree (TreeDict.cons k v rest) keys =
        flattenEntry k v keys ++ flatten_tree rest keys) ∧
    (∀ d : TreeDict, TreeDict.NodupKeys d → (flatten_tree d []).Nodup) :=
  ⟨mem_flatten_tree, flatten_tree_acc, fun _ _ _ _ => rfl, flatten_tree_nodup⟩

/-- C3: sequence encoding is the set encoding of exactly the `C(n, 2)`
two-element combinations of the input, each pair in original index
order (position `i` before position `j` with `i < j`, never
reversed). -/
theorem C3_sequence_pairs (self : SimilarityHashing) (data : List PyVal) :
    self.sequence_hashing data = self.set_hashing ((combinations2 data).map pairToVal) ∧
    (combinations2 data).length = Nat.choose data.length 2 ∧
    (∀ p : PyVal × PyVal, p ∈ combinations2 data ↔
      ∃ i j : Fin data.length, i < j ∧ p = (data.get i, data.get j)) :=
  ⟨rfl, length_combinations2 data, fun p => mem_combinations2 data p⟩

/-- C7: a tree input with more than one top-level key fails with the
single-root structure error, and no sketch is produced. -/
theorem C7_tree_multi_root (self : SimilarityHashing) (data : TreeDict)
    (hroots : 1 < data.keys.length) :
    self.tree_hashing data = Except.error "A tree has only 1 root node!" := by
  unfold SimilarityHashing.tree_hashing
  rw [if_neg (by omega), if_pos (by omega)]

/-- Witness for C7 at a concrete two-root input, keys 1 and 2. -/
theorem C7_tree_multi_root_witness :
    SimilarityHashing.tree_hashing ⟨"tree", 4096, none, none⟩
        (TreeDict.cons (PyVal.int 1) (TreeVal.leaf (PyVal.int 0))
          (TreeDict.cons (PyVal.int 2) (TreeVal.leaf (PyVal.int 0)) TreeDict.nil)) =
      Except.error "A tree has only 1 root node!" :=
  C7_tree_multi_root _ _ (by decide)

/-- C8: the empty tree input returns the defined empty outcome — no
error is raised and no sketch is returned (the empty outcome is
distinct from every sketch outcome). -/
theorem C8_tree_empty_input (self : SimilarityHashing) :
    self.tree_hashing TreeDict.nil = Except.ok TreeResult.empty ∧
    (∀ m : MinHash, TreeResult.empty ≠ TreeResult.sketch m) :=
  ⟨rfl, fun _ h => TreeResult.noConfusion h⟩

/-- C9: set encoding converts each element to its canonical serialized
token, keeps duplicates and order in the token list handed to the
engine, and uses the configured permutation count — which construction
sets to the `size` argument. -/
theorem C9_set_tokens (self : SimilarityHashing) (data : List PyVal) :
    self.set_hashing data = { num_perm := self.num_hash, tokens := data.map pyStr } ∧
    (∀ (k : String) (s : Nat) (w : PyOpt) (h : SimilarityHashing),
      SimilarityHashing.init k s w = Except.ok h → h.num_hash = s) :=
  ⟨set_hashing_eq self data, fun k s w h hinit => (init_ok_inv k s w h hinit).1⟩

/-- C2: on a single-rooted tree, encoding pools, branch by branch in
order, the 2-combinations of each branch (serialized as pair tokens)
into the one token list handed to the set encoding with the configured
permutation count; a branch `(k1, k2, k3, leaf)` contributes exactly
its six order-preserving pairs. -/
theorem C2_tree_pair_pooling (self : SimilarityHashing) (data : TreeDict)
    (hroot : data.keys.length = 1) :
    (∃ m : MinHash,
      self.tree_hashing data = Except.ok (TreeResult.sketch m) ∧
      m.num_perm = self.num_hash ∧
      m.tokens = ((flatten_tree data []).map
        (fun branch => (combinations2 branch).map (fun p => pyStr (pairToVal p)))).flatten) ∧
    (∀ k1 k2 k3 lf : PyVal,
      combinations2 [k1, k2, k3, lf] =
        [(k1, k2), (k1, k3), (k1, lf), (k2, k3), (k2, lf), (k3, lf)]) := by
  constructor
  · refine ⟨self.set_hashing
      ((((flatten_tree data []).map (fun branch => combinations2 branch)).flatten).map pairToVal),
      ?_, ?_, ?_⟩
    · unfold SimilarityHashing.tree_hashing
      rw [if_neg (by omega), if_neg (by omega)]
    · rw [set_hashing_eq]
    · rw [set_hashing_eq]
      show (((((flatten_tree data []).map (fun branch => combinations2 branch)).flatten).map
        pairToVal).map pyStr) = _
      rw [List.map_map, List.map_flatten, List.map_map]
      rfl
  · intro k1 k2 k3 lf
    rfl

/-- Concrete single-root nested tree used by the C2 witness. -/
def exampleTree : TreeDict :=
  TreeDict.cons (PyVal.int 1)
    (TreeVal.node
      (TreeDict.cons (PyVal.int 9) (TreeVal.leaf (PyVal.int 10))
        (TreeDict.cons (PyVal.int 2)
          (TreeVal.node (TreeDict.cons (PyVal.int 3) (TreeVal.leaf (PyVal.int 6)) TreeDict.nil))
          TreeDict.nil)))
    TreeDict.nil

/-- Witness for C2 at a concrete single-root nested tree. -/
theorem C2_tree_pair_pooling_witness :
    (∃ m : MinHash,
      SimilarityHashing.tree_hashing ⟨"tree", 4096, none, none⟩ exampleTree =
        Except.ok (TreeResult.sketch m) ∧
      m.num_perm = 4096 ∧
      m.tokens = ((flatten_tree exampleTree []).map
        (fun branch => (combinations2 branch).map (fun p => pyStr (pairToVal p)))).flatten) ∧
    (∀ k1 k2 k3 lf : PyVal,
      combinations2 [k1, k2, k3, lf] =
        [(k1, k2), (k1, k3), (k1, lf), (k2, k3), (k2, lf), (k3, lf)]) :=
  C2_tree_pair_pooling ⟨"tree", 4096, none, none⟩ exampleTree (by decide)

/-- C6: construction validates eagerly, before any data: an
unrecognized structure kind fails; the weighted kind with a
`weighted_option` that is missing (the default string) or unrecognized
fails; every recognized configuration constructs successfully. -/
theorem C6_eager_config_validation (size : Nat) (w : PyOpt) (k : String) :
    (k ∉ structures → isOk (SimilarityHashing.init k size w) = false) ∧
    (k ∈ ["set", "sequence", "tree"] → isOk (SimilarityHashing.init k size w) = true) ∧
    (PyOpt.lookupDim w = none → isOk (SimilarityHashing.init "weighted_set" size w) = false) ∧
    (∀ dim : Nat, PyOpt.lookupDim w = some dim →
      isOk (SimilarityHashing.init "weighted_set" size w) = true) := by
  refine ⟨?_, ?_, ?_, ?_⟩
  · intro hnot
    unfold SimilarityHashing.init
    rw [if_neg hnot]
    rfl
  · intro hk
    simp only [List.mem_cons, List.not_mem_nil, or_false] at hk
    rcases hk with rfl | rfl | rfl <;> rfl
  · intro hnone
    unfold SimilarityHashing.init
    rw [if_pos (by decide), if_pos rfl]
    by_cases hbf : w = PyOpt.bool false
    · rw [if_pos hbf]
      rfl
    · rw [if_neg hbf, hnone]
      rfl
  · intro dim hdim
    unfold SimilarityHashing.init
    rw [if_pos (by decide), if_pos rfl]
    have hbf : w ≠ PyOpt.bool false := by
      intro hw
      rw [hw] at hdim
      cases hdim
    rw [if_neg hbf, hdim]
    rfl

/-- C10: for the non-weighted kinds the `weighted_option` argument is
never inspected: construction succeeds whatever it is, the constructed
encoders are equal, and therefore every encoding result is identical
for any two option values. -/
theorem C10_weighted_option_unused (k : String)
    (hk : k ∈ ["set", "sequence", "tree"]) (size : Nat) (w1 w2 : PyOpt) :
    SimilarityHashing.init k size w1 = SimilarityHashing.init k size w2 ∧
    isOk (SimilarityHashing.init k size w1) = true ∧
    (∀ data : List PyVal,
      (SimilarityHashing.init k size w1).map (fun h => h.set_hashing data) =
        (SimilarityHashing.init k size w2).map (fun h => h.set_hashing data)) ∧
    (∀ data : List PyVal,
      (SimilarityHashing.init k size w1).map (fun h => h.sequence_hashing data) =
        (SimilarityHashing.init k size w2).map (fun h => h.sequence_hashing data)) ∧
    (∀ data : TreeDict,
      (SimilarityHashing.init k size w1).map (fun h => h.tree_hashing data) =
        (SimilarityHashing.init k size w2).map (fun h => h.tree_hashing data)) := by
  have hini : ∀ w : PyOpt, SimilarityHashing.init k size w =
      Except.ok { structure_name := k, num_hash := size } := by
    intro w
    simp only [List.mem_cons, List.not_mem_nil, or_false] at hk
    rcases hk with rfl | rfl | rfl <;> rfl
  refine ⟨by rw [hini, hini], by rw [hini]; rfl,
    fun data => by rw [hini, hini],
    fun data => by rw [hini, hini],
    fun data => by rw [hini, hini]⟩

/-- Witness for C10: the sequence kind built with an unrecognized
string option and with the boolean `False` option. -/
theorem C10_weighted_option_unused_witness :
    SimilarityHashing.init "sequence" 5 (PyOpt.str "banana") =
        SimilarityHashing.init "sequence" 5 (PyOpt.bool false) ∧
    isOk (SimilarityHashing.init "sequence" 5 (PyOpt.str "banana")) = true ∧
    (∀ data : List PyVal,
      (SimilarityHashing.init "sequence" 5 (PyOpt.str "banana")).map (fun h => h.set_hashing data) =
        (SimilarityHashing.init "sequence" 5 (PyOpt.bool false)).map (fun h => h.set_hashing data)) ∧
    (∀ data : List PyVal,
      (SimilarityHashing.init "sequence" 5 (PyOpt.str "banana")).map (fun h => h.sequence_hashing data) =
        (SimilarityHashing.init "sequence" 5 (PyOpt.bool false)).map (fun h => h.sequence_hashing data)) ∧
    (∀ data : TreeDict,
      (SimilarityHashing.init "sequence" 5 (PyOpt.str "banana")).map (fun h => h.tree_hashing data) =
        (SimilarityHashing.init "sequence" 5 (PyOpt.bool false)).map (fun h => h.tree_hashing data)) :=
  C10_weighted_option_unused "sequence" (by decide) 5 (PyOpt.str "banana") (PyOpt.bool false)


/-- Counterexample to C4 as stated: with dimension 10 (option `sfc`)
the key `"-1"` parses to the integer `-1`, an index outside
`[0, 10)`, yet the encode call succeeds — `numpy.put` wraps the
negative in-bounds index to position `10 + (-1) = 9` and the weight 5
lands there instead of raising. -/
theorem C4_counterexample :
    pyInt? "-1" = some (-1) ∧
    ((-1 : Int) < 0 ∨ (10 : Int) ≤ -1) ∧
    (SimilarityHashing.init "weighted_set" 64 (PyOpt.str "sfc")).bind
        (fun h => h.weighted_set_hashing [("-1", (5 : Rat))]) =
      Except.ok ⟨10, 64, [0, 0, 0, 0, 0, 0, 0, 0, 0, 5]⟩ :=
  ⟨by decide, Or.inl (by decide), by rfl⟩

/-- C4 amended: a key that does not parse as an integer fails the
whole call with an error, and so does a parsed index outside
`[-dimension, dimension)`; a negative index inside `[-dimension, 0)`
is not an error — it wraps to `dimension + index`. Failure aborts the
call: an error is returned and no sketch. -/
theorem C4_weighted_range_errors (h : SimilarityHashing) (dim : Nat)
    (gen : WeightedMinHashGenerator)
    (hdim : h.weighted_set_option = some dim)
    (hgen : h.weighted_hash_gen = some gen)
    (data : List (String × Rat))
    (hbad : ∃ kv ∈ data, pyInt? kv.1 = none ∨
      ∃ i : Int, pyInt? kv.1 = some i ∧ (i < -(dim : Int) ∨ (dim : Int) ≤ i)) :
    ∃ msg, h.weighted_set_hashing data = Except.error msg := by
  obtain ⟨sn, nh, wo, wg⟩ := h
  simp only [SimilarityHashing.weighted_set_option, SimilarityHashing.weighted_hash_gen] at hdim hgen
  subst hdim
  subst hgen
  rw [weighted_set_hashing_eq]
  by_cases hparse : ∃ k ∈ data.map (fun kv => kv.1), pyInt? k = none
  · obtain ⟨msg, hmsg⟩ := mapM_parseKey_err _ hparse
    rw [hmsg]
    exact ⟨msg, by simp⟩
  · have hall : ∀ k ∈ data.map (fun kv => kv.1), (pyInt? k).isSome = true := by
      intro q hq
      cases hpq : pyInt? q with
      | none => exact absurd ⟨q, hq, hpq⟩ hparse
      | some _ => rfl
    rw [mapM_parseKey_ok _ hall]
    rcases hbad with ⟨kv, hkv, hbadkv⟩
    have hparsed : ∃ i : Int, pyInt? kv.1 = some i ∧ (i < -(dim : Int) ∨ (dim : Int) ≤ i) := by
      rcases hbadkv with hnone | hrange
      · have hsome := hall kv.1 (List.mem_map_of_mem _ hkv)
        rw [hnone] at hsome
        cases hsome
      · exact hrange
    rcases hparsed with ⟨i, hip, hir⟩
    have hzip : ((data.map (fun kv => kv.1)).map (fun k => (pyInt? k).getD 0)).zip
        (data.map (fun kv => kv.2)) =
        data.map (fun kv => ((pyInt? kv.1).getD 0, kv.2)) := by
      rw [List.map_map, List.zip_map']
      rfl
    obtain ⟨msg, hmsg⟩ := npPutGo_err dim
      (data.map (fun kv => ((pyInt? kv.1).getD 0, kv.2))) (List.replicate dim 0)
      ⟨((pyInt? kv.1).getD 0, kv.2), List.mem_map_of_mem _ hkv, by rw [hip]; exact hir⟩
    refine ⟨msg, ?_⟩
    rw [ok_bind]
    unfold npPut
    rw [List.length_replicate, hzip, hmsg]
    rfl

/-- Witness for the amended C4: dimension 10, key `"10"` (index 10 is
outside `[-10, 10)`) makes the call return an error. -/
theorem C4_weighted_range_errors_witness :
    ∃ msg, SimilarityHashing.weighted_set_hashing
        ⟨"weighted_set", 64, some 10, some ⟨10, 64⟩⟩ [("10", (1 : Rat))] =
      Except.error msg :=
  C4_weighted_range_errors ⟨"weighted_set", 64, some 10, some ⟨10, 64⟩⟩ 10 ⟨10, 64⟩
    rfl rfl [("10", (1 : Rat))]
    ⟨("10", (1 : Rat)), List.mem_cons_self _ _,
      Or.inr ⟨10, by decide, Or.inr (by decide)⟩⟩


/-- C5: a weighted-set encode whose keys all parse to indices in
`[0, dimension)` builds a dense vector of exactly the configured
dimension, writes each weight at its key's parsed index with the last
write winning on duplicate indices, and hands the vector to the
generator bound to `(dimension, sampleSize)` at construction. -/
theorem C5_weighted_vector (size : Nat) (w : PyOpt) (dim : Nat) (h : SimilarityHashing)
    (hinit : SimilarityHashing.init "weighted_set" size w = Except.ok h)
    (hdim : h.weighted_set_option = some dim)
    (data : List (String × Rat))
    (hgood : ∀ kv ∈ data, ∃ n : Nat, pyInt? kv.1 = some (n : Int) ∧ n < dim) :
    h.weighted_hash_gen = some ⟨dim, size⟩ ∧
    ∃ v : List Rat,
      h.weighted_set_hashing data =
        Except.ok (WeightedMinHashGenerator.minhash ⟨dim, size⟩ v) ∧
      v.length = dim ∧
      (∀ kv ∈ data, pyInt? kv.1 = some ((parsedIndex kv.1 : Nat) : Int)) ∧
      (∀ i : Nat, i < dim →
        v.getD i 0 =
          match data.reverse.find? (fun kv => parsedIndex kv.1 == i) with
          | some kv => kv.2
          | none => 0) := by
  obtain ⟨d, hld, rfl⟩ := init_weighted_inv size w h hinit
  obtain rfl : d = dim := Option.some.inj hdim
  have hall : ∀ k ∈ data.map (fun kv => kv.1), (pyInt? k).isSome = true := by
    intro q hq
    rcases List.mem_map.mp hq with ⟨kv, hkv, rfl⟩
    obtain ⟨n, hn, _⟩ := hgood kv hkv
    rw [hn]
    rfl
  have hzip : ((data.map (fun kv => kv.1)).map (fun k => (pyInt? k).getD 0)).zip
      (data.map (fun kv => kv.2)) =
      data.map (fun kv => ((pyInt? kv.1).getD 0, kv.2)) := by
    rw [List.map_map, List.zip_map']
    rfl
  have hgoodpairs : ∀ pr ∈ data.map (fun kv => ((pyInt? kv.1).getD 0, kv.2)),
      0 ≤ pr.1 ∧ pr.1 < (d : Int) := by
    intro pr hpr
    rcases List.mem_map.mp hpr with ⟨kv, hkv, rfl⟩
    obtain ⟨n, hn, hlt⟩ := hgood kv hkv
    simp only [hn, Option.getD_some]
    exact ⟨Int.ofNat_nonneg n, by exact_mod_cast hlt⟩
  have hrun : SimilarityHashing.weighted_set_hashing
      ⟨"weighted_set", size, some d, some ⟨d, size⟩⟩ data =
      Except.ok (WeightedMinHashGenerator.minhash ⟨d, size⟩
        (data.foldl (fun v kv => v.set (parsedIndex kv.1) kv.2)
          (List.replicate d 0))) := by
    rw [weighted_set_hashing_eq, mapM_parseKey_ok _ hall, ok_bind]
    unfold npPut
    rw [List.length_replicate, hzip, npPutGo_ok d _ _ hgoodpairs, ok_bind,
      List.foldl_map]
    rfl
  refine ⟨rfl, data.foldl (fun v kv => v.set (parsedIndex kv.1) kv.2)
    (List.replicate d 0), hrun, ?_, ?_, ?_⟩
  · rw [weighted_fold_length, List.length_replicate]
  · intro kv hkv
    obtain ⟨n, hn, _⟩ := hgood kv hkv
    unfold parsedIndex
    rw [hn]
    simp
  · intro i hi
    rw [weighted_fold_getD data (List.replicate d 0) i
      (by rw [List.length_replicate]; exact hi)]
    cases hfind : data.reverse.find? (fun kv => parsedIndex kv.1 == i) with
    | some kv => rfl
    | none =>
      simp [List.getD_eq_getElem?_getD, List.getElem?_replicate_of_lt hi]

/-- Witness for C5: dimension 10 (option `sfc`), the keys `"3"` and
`"03"` both write index 3, the later weight 7 winning. -/
theorem C5_weighted_vector_witness :
    SimilarityHashing.weighted_hash_gen
        ⟨"weighted_set", 64, some 10, some ⟨10, 64⟩⟩ = some ⟨10, 64⟩ ∧
    ∃ v : List Rat,
      SimilarityHashing.weighted_set_hashing
          ⟨"weighted_set", 64, some 10, some ⟨10, 64⟩⟩
          [("3", (5 : Rat)), ("03", (7 : Rat))] =
        Except.ok (WeightedMinHashGenerator.minhash ⟨10, 64⟩ v) ∧
      v.length = 10 ∧
      (∀ kv ∈ [("3", (5 : Rat)), ("03", (7 : Rat))],
        pyInt? kv.1 = some ((parsedIndex kv.1 : Nat) : Int)) ∧
      (∀ i : Nat, i < 10 →
        v.getD i 0 =
          match [("3", (5 : Rat)), ("03", (7 : Rat))].reverse.find?
              (fun kv => parsedIndex kv.1 == i) with
          | some kv => kv.2
          | none => 0) :=
  C5_weighted_vector 64 (PyOpt.str "sfc") 10
    ⟨"weighted_set", 64, some 10, some ⟨10, 64⟩⟩ (by rfl) rfl
    [("3", (5 : Rat)), ("03", (7 : Rat))]
    (by
      intro kv hkv
      rcases List.mem_cons.mp hkv with rfl | hkv2
      · exact ⟨3, by decide, by decide⟩
      · rcases List.mem_cons.mp hkv2 with rfl | hkv3
        · exact ⟨3, by decide, by decide⟩
        · exact absurd hkv3 (List.not_mem_nil _))

end UniversalMinHash
